import Mathlib

/-!
Verification of the HTY columnar-table analyzer.

This file gives a shallow embedding of the core of `src/analyze.cpp`:
the metadata model, column location (`get_column_info`), projection
(`project_single_column`, `project`), filtering (`apply_filter`, `filter`,
`project_and_filter`), the appender (`validate_rows`, `add_row`) and the
number formatter (`format_large_number`).

Modelling conventions:
- Stored 32-bit float values are embedded as exact rationals (`ℚ`); the
  C++ `float` arithmetic used by the analyzer is plain comparison and
  copying, which the rational model reflects faithfully.
- The data region of an HTY file is a list of 4-byte float cells
  (`List ℚ`): the cell at list index `k` occupies bytes `4*k .. 4*k+3`.
  All offsets in metadata and in the code below stay in BYTES, exactly as
  in the source; `readFloatAt` converts a byte offset to a cell index.
  Group offsets produced by the converter and by `add_row` are always
  4-byte aligned.
- A C++ read past end-of-file leaves the zero-initialised destination
  untouched, so out-of-range cell reads default to `0`, matching
  `List.getD _ _ 0`.
- Errors that the C++ reports on `stderr` and signals by returning an
  empty vector / returning early are modelled by empty results and
  `Option`/error inductives.
-/

set_option linter.unusedVariables false

namespace Hty

/-- One column descriptor, as in the metadata JSON `columns` arrays. -/
structure Column where
  column_name : String
  column_type : String
  deriving DecidableEq, Inhabited

/-- One group descriptor: `num_columns`, byte `offset`, and `columns`. -/
structure Group where
  num_columns : Nat
  offset : Nat
  columns : List Column
  deriving DecidableEq, Inhabited

/-- Decoded metadata: `num_rows`, `num_groups` and the group descriptors. -/
structure Metadata where
  num_rows : Nat
  num_groups : Nat
  groups : List Group
  deriving DecidableEq, Inhabited

/-- Filter-operation codes, mirroring the C++ `FilterOperation` enum. -/
def GREATER_THAN : Int := 0

/-- Code 1 of the C++ `FilterOperation` enum. -/
def GREATER_EQUAL : Int := 1

/-- Code 2 of the C++ `FilterOperation` enum. -/
def LESS_THAN : Int := 2

/-- Code 3 of the C++ `FilterOperation` enum. -/
def LESS_EQUAL : Int := 3

/-- Code 4 of the C++ `FilterOperation` enum. -/
def EQUAL : Int := 4

/-- Code 5 of the C++ `FilterOperation` enum. -/
def NOT_EQUAL : Int := 5

/-- Absolute value as computed by `std::abs`, kept kernel-reducible. -/
def qAbs (a : ℚ) : ℚ :=
  if a < 0 then -a else a

/-- Reads the float cell stored at byte offset `off` of the data region.
A read beyond the end of the region produces `0`, matching the C++
behaviour of a failed `ifstream::read` into zero-initialised storage. -/
def readFloatAt (file : List ℚ) (off : Nat) : ℚ :=
  file.getD (off / 4) 0

/-- The byte-offset expression `g.offset + (row * g.num_columns + col) * 4`
used by every read loop of the analyzer, packaged as a cell read. -/
def readCell (file : List ℚ) (g : Group) (row col : Nat) : ℚ :=
  readFloatAt file (g.offset + (row * g.num_columns + col) * 4)

/-- Inner loop of `get_column_info`: scan a group's `columns` in order and
return the index of the first one whose `column_name` matches. -/
def findColIdx (name : String) : List Column → Option Nat
  | [] => none
  | c :: rest =>
    if c.column_name = name then some 0
    else (findColIdx name rest).map (· + 1)

/-- Outer loop of `get_column_info`: scan groups in declaration order,
returning the first `(group_index, column_index)` match. -/
def findGroupCol (name : String) : List Group → Option (Nat × Nat)
  | [] => none
  | g :: rest =>
    match findColIdx name g.columns with
    | some j => some (0, j)
    | none => (findGroupCol name rest).map (fun p => (p.1 + 1, p.2))

/-- `get_column_info` from `analyze.cpp`: empty names are rejected, then
groups `0 .. num_groups-1` are scanned in order and within each group the
columns in order; the first match is returned, `(-1, -1)` otherwise. -/
def get_column_info (md : Metadata) (column_name : String) : Int × Int :=
  if column_name = "" then (-1, -1)
  else
    match findGroupCol column_name (md.groups.take md.num_groups) with
    | some (i, j) => ((i : Int), (j : Int))
    | none => (-1, -1)

/-- `project_single_column` from `analyze.cpp`: resolve the column, then
for each `i < num_rows` read the float at byte offset
`offset + (i * num_columns + column_index) * sizeof(float)`. -/
def project_single_column (md : Metadata) (file : List ℚ) (projected_column : String) :
    List ℚ :=
  let p := get_column_info md projected_column
  if p.1 = -1 ∨ p.2 = -1 then []
  else
    let group := md.groups.getD p.1.toNat default
    (List.range md.num_rows).map (fun i =>
      readFloatAt file (group.offset + (i * group.num_columns + p.2.toNat) * 4))

/-- Fixed comparison tolerance `EPSILON = 1e-6` of `apply_filter`
(written with `mkRat` to keep it kernel-reducible). -/
def EPSILON : ℚ := mkRat 1 1000000

/-- `apply_filter` from `analyze.cpp`: switch over the integer operation
code; equality and inequality compare `|value - filter_value|` against
`EPSILON`, the four orderings are exact comparisons, and any other code
falls through to `false`. -/
def apply_filter (value : ℚ) (operation : Int) (filter_value : ℚ) : Bool :=
  if operation = GREATER_THAN then decide (value > filter_value)
  else if operation = GREATER_EQUAL then decide (value ≥ filter_value)
  else if operation = LESS_THAN then decide (value < filter_value)
  else if operation = LESS_EQUAL then decide (value ≤ filter_value)
  else if operation = EQUAL then decide (qAbs (value - filter_value) < EPSILON)
  else if operation = NOT_EQUAL then decide (qAbs (value - filter_value) ≥ EPSILON)
  else false

/-- `filter` from `analyze.cpp`: project the column, return empty if the
projection is empty, otherwise keep the values passing `apply_filter`,
in row order. -/
def filter (md : Metadata) (file : List ℚ) (filtered_column : String)
    (operation : Int) (filtered_value : ℚ) : List ℚ :=
  let column_data := project_single_column md file filtered_column
  if column_data = [] then []
  else column_data.filter (fun value => apply_filter value operation filtered_value)

/-- Loop of `verify_same_group` over the columns after the first: an empty
name or a name resolving to no group or to a different group yields `-1`. -/
def vsg_loop (md : Metadata) (first_group : Int) : List String → Int
  | [] => first_group
  | c :: rest =>
    if c = "" then -1
    else
      let q := get_column_info md c
      if q.1 = -1 ∨ q.1 ≠ first_group then -1
      else vsg_loop md first_group rest

/-- `verify_same_group` from `analyze.cpp`: returns the common group index
of all named columns, or `-1` when the list is empty, a name does not
resolve, or two names resolve to different groups. -/
def verify_same_group (md : Metadata) (columns : List String) : Int :=
  match columns with
  | [] => -1
  | c0 :: rest =>
    let p := get_column_info md c0
    if p.1 = -1 then -1
    else vsg_loop md p.1 rest

/-- `project` from `analyze.cpp`: verify the single-group constraint, then
read each requested column over all rows.  The C++ fills `result[i][row]`
iterating rows in the outer loop; the writes are independent, so building
each column's list directly yields the identical result. -/
def project (md : Metadata) (file : List ℚ) (projected_columns : List String) :
    List (List ℚ) :=
  let group_index := verify_same_group md projected_columns
  if group_index = -1 then []
  else
    let group := md.groups.getD group_index.toNat default
    let column_indices := projected_columns.map (fun n => (get_column_info md n).2)
    column_indices.map (fun ci =>
      (List.range md.num_rows).map (fun row => readCell file group row ci.toNat))

/-- One row step of the `project_and_filter` scan: when the filter column's
value at `row` passes, append each projected column's value at `row` to
that column's output (the C++ `result[i].push_back`). -/
def paf_step (file : List ℚ) (g : Group) (proj_indices : List Nat) (filter_col_idx : Nat)
    (op : Int) (v : ℚ) (result : List (List ℚ)) (row : Nat) : List (List ℚ) :=
  if apply_filter (readCell file g row filter_col_idx) op v then
    List.zipWith (fun col ci => col ++ [readCell file g row ci]) result proj_indices
  else result

/-- `project_and_filter` from `analyze.cpp`: add the filter column to the
requested names if absent, verify the single-group constraint, then scan
rows once, testing the filter column and appending the projected values
of passing rows. -/
def project_and_filter (md : Metadata) (file : List ℚ) (projected_columns : List String)
    (filtered_column : String) (op : Int) (v : ℚ) : List (List ℚ) :=
  let all_columns :=
    if filtered_column ∈ projected_columns then projected_columns
    else projected_columns ++ [filtered_column]
  let group_index := verify_same_group md all_columns
  if group_index = -1 then []
  else
    let group := md.groups.getD group_index.toNat default
    let proj_indices := projected_columns.map (fun n => (get_column_info md n).2.toNat)
    let filter_col_idx := (get_column_info md filtered_column).2.toNat
    (List.range md.num_rows).foldl
      (paf_step file group proj_indices filter_col_idx op v)
      (projected_columns.map (fun _ => []))

/-- Validation failures of `validate_rows`, carrying the data printed in
the corresponding `stderr` messages. -/
inductive RowsError where
  | noRows : RowsError
  | shapeMismatch (rowIndex expected got : Nat) : RowsError
  deriving DecidableEq

/-- Total logical column count: the sum of `num_columns` over all groups. -/
def total_columns (md : Metadata) : Nat :=
  (md.groups.map (fun g => g.num_columns)).sum

/-- Loop of `validate_rows`: report the first row whose length differs
from the expected total column count. -/
def validate_rows_go (total : Nat) : Nat → List (List ℚ) → Option RowsError
  | _, [] => none
  | i, r :: rest =>
    if r.length ≠ total then some (RowsError.shapeMismatch i total r.length)
    else validate_rows_go total (i + 1) rest

/-- `validate_rows` from `analyze.cpp`: an empty row list is rejected
("No rows provided"), otherwise every row's length must equal the total
column count; `none` means valid. -/
def validate_rows (md : Metadata) (rows : List (List ℚ)) : Option RowsError :=
  if rows = [] then some RowsError.noRows
  else validate_rows_go (total_columns md) 0 rows

/-- Starting logical-column offset of group `gidx`: the sum of
`num_columns` over the preceding groups (the C++ `start_col` loop). -/
def start_col (md : Metadata) (gidx : Nat) : Nat :=
  ((md.groups.take gidx).map (fun g => g.num_columns)).sum

/-- New-row values contributed to one group: for each new row in order,
its `num_columns` floats taken from the row's full-width slice starting
at `start_col` (the C++ `row[start_col + col]` write loop). -/
def new_row_values (group_columns sc : Nat) : List (List ℚ) → List ℚ
  | [] => []
  | row :: rest =>
    (List.range group_columns).map (fun col => row.getD (sc + col) 0)
      ++ new_row_values group_columns sc rest

/-- Output block `add_row` writes for group `gidx`: the group's existing
`num_rows * num_columns` cells copied verbatim from the source at its old
offset (missing bytes read as the zero-initialised copy buffer), followed
by the group's slice of every new row. -/
def group_block (md : Metadata) (file : List ℚ) (rows : List (List ℚ)) (gidx : Nat) :
    List ℚ :=
  let group := md.groups.getD gidx default
  ((List.range (md.num_rows * group.num_columns)).map
      (fun k => readFloatAt file (group.offset + 4 * k)))
    ++ new_row_values group.num_columns (start_col md gidx) rows

/-- Group loop of `add_row`: processes `n` remaining groups starting at
index `gidx` with running output byte offset `current_offset`, producing
the rewritten group descriptors and the concatenated output data region.
Each group's new offset is the running offset, which then advances by
`group_size + rows.size() * group_columns * sizeof(float)`. -/
def add_row_go (md : Metadata) (file : List ℚ) (rows : List (List ℚ)) :
    Nat → Nat → Nat → List Group × List ℚ
  | 0, _, _ => ([], [])
  | n + 1, gidx, current_offset =>
    let group := md.groups.getD gidx default
    let group_size := md.num_rows * group.num_columns * 4
    let rest := add_row_go md file rows n (gidx + 1)
      (current_offset + group_size + rows.length * group.num_columns * 4)
    ({ group with offset := current_offset } :: rest.1,
      group_block md file rows gidx ++ rest.2)

/-- Floor of a non-negative rational as a natural number. -/
def qFloorNat (a : ℚ) : Nat :=
  a.num.toNat / a.den

/-- Round-to-nearest (half up) of `a * mulN / divN` for a non-negative
rational `a`, computed in integer arithmetic so that it kernel-reduces.
The claimed formatting instances are far from any rounding tie, so the
tie-breaking direction is immaterial for them. -/
def qScaleRound (a : ℚ) (mulN divN : Nat) : Nat :=
  (2 * a.num.toNat * mulN + a.den * divN) / (2 * a.den * divN)

/-- Fuel-bounded base-10 logarithm; 64 digits of fuel covers any float. -/
def log10fuel : Nat → Nat → Nat
  | 0, _ => 0
  | f + 1, n => if n < 10 then 0 else log10fuel f (n / 10) + 1

/-- Left-pads a digit string with zeros to the requested width. -/
def padZeros (s : String) (width : Nat) : String :=
  String.mk (List.replicate (width - s.length) '0') ++ s

/-- Drops trailing `'0'` characters. -/
def dropTrailingZeros (l : List Char) : List Char :=
  (l.reverse.dropWhile (fun c => c = '0')).reverse

/-- The mantissa clean-up of `format_large_number`: strip trailing zeros
after the decimal point, and a then-bare trailing decimal point (the
`find_last_not_of('0', ...)` / erase sequence of the C++). -/
def stripMantissa (s : String) : String :=
  let l := dropTrailingZeros s.data
  String.mk (if l.getLast? = some '.' then l.dropLast else l)

/-- Fixed-point rendering with `prec` fractional digits, the
`std::fixed << std::setprecision(prec)` path of the formatter. -/
def fixedRender (v : ℚ) (prec : Nat) : String :=
  let m := qScaleRound (qAbs v) (10 ^ prec) 1
  (if v < 0 then "-" else "")
    ++ toString (m / 10 ^ prec) ++ "." ++ padZeros (toString (m % 10 ^ prec)) prec

/-- Scientific rendering with a 5-digit mantissa, the
`std::scientific << std::setprecision(5)` path of the formatter followed
by the trailing-zero strip.  `m0 = 10^6` can only arise by rounding carry,
in which case the mantissa renormalises and the exponent increments, as in
the C++ library rendering. -/
def sciRender (v : ℚ) : String :=
  let a := qAbs v
  let e0 := log10fuel 64 (qFloorNat a)
  let m0 := qScaleRound a 100000 (10 ^ e0)
  let m := if 1000000 ≤ m0 then m0 / 10 else m0
  let e10 := if 1000000 ≤ m0 then e0 + 1 else e0
  let mantissa := toString (m / 100000) ++ "." ++ padZeros (toString (m % 100000)) 5
  (if v < 0 then "-" else "")
    ++ stripMantissa mantissa ++ "e+"
    ++ (if e10 < 10 then "0" ++ toString e10 else toString e10)

/-- Threshold `BILLION = 1e9` of the formatter. -/
def BILLION : ℚ := 1000000000

/-- `format_large_number` from `analyze.cpp`: magnitudes of at least 1e9
render scientifically with a 5-digit mantissa and trailing zeros (and a
bare decimal point) stripped; integral values (`value == (int)value`,
expressed here as a denominator of 1) render fixed with one fractional
digit; all other values render fixed with two fractional digits. -/
def format_large_number (value : ℚ) : String :=
  if qAbs value ≥ BILLION then sciRender value
  else if value.den = 1 then fixedRender value 1
  else fixedRender value 2

/-- `add_row` from `analyze.cpp`: validate the new rows (failure writes no
output at all — validation precedes opening the destination), then rewrite
every group as existing block plus new-row slice, and return the new
metadata (`num_rows` increased, offsets recomputed) with the new data
region.  The metadata trailer bytes are represented by the returned
`Metadata` value itself. -/
def add_row (md : Metadata) (file : List ℚ) (rows : List (List ℚ)) :
    Option (Metadata × List ℚ) :=
  match validate_rows md rows with
  | some _ => none
  | none =>
    let result := add_row_go md file rows md.num_groups 0 0
    some ({ md with num_rows := md.num_rows + rows.length, groups := result.1 },
      result.2)

/-- Well-formedness of decoded metadata: the declared group count matches
the group list, and each group declares as many column descriptors as its
column count. -/
def WellFormed (md : Metadata) : Prop :=
  md.num_groups = md.groups.length ∧
  ∀ g ∈ md.groups, g.columns.length = g.num_columns

instance (md : Metadata) : Decidable (WellFormed md) := by
  unfold WellFormed
  infer_instance

/-- A two-group example table: group 0 holds columns `a`, `b` over rows
`(1,2)` and `(3,4)`; group 1 holds column `c` with values `10`, `20`. -/
def mdEx : Metadata :=
  { num_rows := 2
    num_groups := 2
    groups :=
      [ { num_columns := 2, offset := 0,
          columns := [⟨"a", "float"⟩, ⟨"b", "float"⟩] },
        { num_columns := 1, offset := 16,
          columns := [⟨"c", "float"⟩] } ] }

/-- Data region of the `mdEx` table. -/
def fileEx : List ℚ := [1, 2, 3, 4, 10, 20]

/-- A one-group, one-row example table with a single column `p`. -/
def mdEx2 : Metadata :=
  { num_rows := 1
    num_groups := 1
    groups := [ { num_columns := 1, offset := 0, columns := [⟨"p", "float"⟩] } ] }

/-- Data region of the `mdEx2` table. -/
def fileEx2 : List ℚ := [7]

/-- A table in which the name `x` occurs in two groups; the first
occurrence (group 0, column 0) shadows the second. -/
def mdDup : Metadata :=
  { num_rows := 1
    num_groups := 2
    groups :=
      [ { num_columns := 1, offset := 0, columns := [⟨"x", "float"⟩] },
        { num_columns := 2, offset := 4,
          columns := [⟨"x", "float"⟩, ⟨"y", "float"⟩] } ] }

/-- Computable absolute value agrees with the mathematical one. -/
theorem qAbs_eq_abs (a : ℚ) : qAbs a = |a| := by
  rcases lt_or_le a 0 with h | h
  · simp [qAbs, h, abs_of_neg h]
  · simp [qAbs, not_lt.mpr h, abs_of_nonneg h]

/-- The embedded tolerance is the rational 1e-6. -/
theorem EPSILON_eq : EPSILON = 1 / 1000000 := by
  norm_num [EPSILON, mkRat, Rat.normalize]

/-- C10: `apply_filter` with `NOT_EQUAL` is the exact boolean negation of
`apply_filter` with `EQUAL` on the same arguments: `EQUAL` holds iff
`|value - threshold| < 1e-6`, `NOT_EQUAL` holds iff
`|value - threshold| >= 1e-6`, so exactly one of the two holds. -/
theorem apply_filter_equal_negation (x t : ℚ) :
    apply_filter x NOT_EQUAL t = !apply_filter x EQUAL t
    ∧ (apply_filter x EQUAL t = true ↔ |x - t| < 1 / 1000000)
    ∧ (apply_filter x NOT_EQUAL t = true ↔ 1 / 1000000 ≤ |x - t|)
    ∧ ((apply_filter x EQUAL t = true) ↔ ¬(apply_filter x NOT_EQUAL t = true)) := by
  have hE : apply_filter x EQUAL t = decide (|x - t| < 1 / 1000000) := by
    simp [apply_filter, GREATER_THAN, GREATER_EQUAL, LESS_THAN, LESS_EQUAL, EQUAL,
      NOT_EQUAL, EPSILON_eq, qAbs_eq_abs]
  have hN : apply_filter x NOT_EQUAL t = decide (1 / 1000000 ≤ |x - t|) := by
    simp [apply_filter, GREATER_THAN, GREATER_EQUAL, LESS_THAN, LESS_EQUAL, EQUAL,
      NOT_EQUAL, EPSILON_eq, qAbs_eq_abs]
  have hflip : decide (1 / 1000000 ≤ |x - t|) = !decide (|x - t| < (1 / 1000000 : ℚ)) := by
    rcases lt_or_le (|x - t|) (1 / 1000000 : ℚ) with h | h
    · rw [decide_eq_false (not_le.mpr h), decide_eq_true h]
      rfl
    · rw [decide_eq_true h, decide_eq_false (not_lt.mpr h)]
      rfl
  refine ⟨by rw [hE, hN, hflip], by simp [hE], by simp [hN], ?_⟩
  rw [hE, hN, hflip]
  simp

/-- C8: magnitudes of at least 1e9 render scientifically with a 5-digit
mantissa, trailing zeros and a bare decimal point stripped and a
two-digit signed exponent; integral values below the threshold render
fixed with one fractional digit, all other values with two; in
particular `format(2500000000) = "2.5e+09"`, `format(5) = "5.0"`,
`format(3.14159) = "3.14"`, `format(1e9)` is scientific and
`format(999999999)` is fixed-point. -/
theorem format_large_number_spec :
    format_large_number 2500000000 = "2.5e+09"
    ∧ format_large_number 5 = "5.0"
    ∧ ((mkRat 314159 100000 : ℚ) = 314159 / 100000
        ∧ format_large_number (mkRat 314159 100000) = "3.14")
    ∧ format_large_number 1000000000 = "1e+09"
    ∧ format_large_number 999999999 = "999999999.0"
    ∧ (∀ v : ℚ, |v| ≥ BILLION → format_large_number v = sciRender v)
    ∧ (∀ v : ℚ, |v| < BILLION → v.den = 1 → format_large_number v = fixedRender v 1)
    ∧ (∀ v : ℚ, |v| < BILLION → v.den ≠ 1 → format_large_number v = fixedRender v 2) := by
  refine ⟨by decide, by decide, ⟨by norm_num [mkRat, Rat.normalize], by decide⟩,
    by decide, by decide, ?_, ?_, ?_⟩
  · intro v hv
    rw [← qAbs_eq_abs] at hv
    simp [format_large_number, hv]
  · intro v hv hden
    rw [← qAbs_eq_abs] at hv
    simp [format_large_number, not_le.mpr hv, hden]
  · intro v hv hden
    rw [← qAbs_eq_abs] at hv
    simp [format_large_number, not_le.mpr hv, hden]

/-- Witness for the general clauses of `format_large_number_spec` at
concrete inputs. -/
theorem format_large_number_spec_witness :
    format_large_number 3000000000 = sciRender 3000000000
    ∧ format_large_number 7 = fixedRender 7 1
    ∧ format_large_number (mkRat 1 2) = fixedRender (mkRat 1 2) 2 :=
  ⟨format_large_number_spec.2.2.2.2.2.1 3000000000
      (by rw [← qAbs_eq_abs]; decide),
    format_large_number_spec.2.2.2.2.2.2.1 7 (by rw [← qAbs_eq_abs]; decide)
      (by decide),
    format_large_number_spec.2.2.2.2.2.2.2 (mkRat 1 2)
      (by rw [← qAbs_eq_abs]; decide) (by decide)⟩

/-- Membership from a successful indexed access. -/
theorem getD_mem {α : Type} {l : List α} {j : Nat} {d : α} (h : j < l.length) :
    l.getD j d ∈ l := by
  rw [List.getD_eq_getElem l d h]
  exact List.getElem_mem h

/-- Unfolding equation of `findColIdx` on a cons cell. -/
theorem findColIdx_cons (name : String) (c : Column) (rest : List Column) :
    findColIdx name (c :: rest) =
      if c.column_name = name then some 0 else (findColIdx name rest).map (· + 1) := rfl

/-- Unfolding equation of `findGroupCol` on a cons cell. -/
theorem findGroupCol_cons (name : String) (g : Group) (rest : List Group) :
    findGroupCol name (g :: rest) =
      match findColIdx name g.columns with
      | some j => some (0, j)
      | none => (findGroupCol name rest).map (fun p => (p.1 + 1, p.2)) := rfl

/-- A column-scan returns `none` exactly when no column matches. -/
theorem findColIdx_none_iff (name : String) (cols : List Column) :
    findColIdx name cols = none ↔ ∀ c ∈ cols, c.column_name ≠ name := by
  induction cols with
  | nil => simp [findColIdx]
  | cons c rest ih =>
    rw [findColIdx_cons]
    by_cases hc : c.column_name = name
    · simp [hc]
    · simp [hc, Option.map_eq_none', ih]

/-- A column-scan returns `some j` exactly when column `j` matches and no
earlier column does. -/
theorem findColIdx_some_iff (name : String) (cols : List Column) (j : Nat) :
    findColIdx name cols = some j ↔
      (j < cols.length ∧ (cols.getD j default).column_name = name ∧
        ∀ k < j, (cols.getD k default).column_name ≠ name) := by
  induction cols generalizing j with
  | nil => simp [findColIdx]
  | cons c rest ih =>
    rw [findColIdx_cons]
    by_cases hc : c.column_name = name
    · rw [if_pos hc]
      constructor
      · intro h
        have hj : (0 : Nat) = j := Option.some.inj h
        subst hj
        exact ⟨Nat.succ_pos _, by simpa using hc, by omega⟩
      · rintro ⟨h1, h2, h3⟩
        cases j with
        | zero => rfl
        | succ j => exact absurd hc (h3 0 (Nat.succ_pos j))
    · rw [if_neg hc]
      cases j with
      | zero =>
        simp only [Option.map_eq_some']
        constructor
        · rintro ⟨a, ha, hinc⟩
          omega
        · rintro ⟨h1, h2, h3⟩
          exact absurd (by simpa using h2) hc
      | succ j =>
        simp only [Option.map_eq_some']
        constructor
        · rintro ⟨a, ha, hinc⟩
          have ha' : a = j := by omega
          rw [ha'] at ha
          obtain ⟨h1, h2, h3⟩ := (ih j).mp ha
          refine ⟨by simpa using h1, by simpa using h2, ?_⟩
          intro k hk
          cases k with
          | zero => simpa using hc
          | succ k => simpa using h3 k (by omega)
        · rintro ⟨h1, h2, h3⟩
          refine ⟨j, (ih j).mpr ⟨by simpa using h1, by simpa using h2, ?_⟩, rfl⟩
          intro k hk
          simpa using h3 (k + 1) (by omega)

/-- A group-scan returns `none` exactly when no group contains a match. -/
theorem findGroupCol_none_iff (name : String) (gs : List Group) :
    findGroupCol name gs = none ↔ ∀ g ∈ gs, ∀ c ∈ g.columns, c.column_name ≠ name := by
  induction gs with
  | nil => simp [findGroupCol]
  | cons g rest ih =>
    rw [findGroupCol_cons]
    cases hf : findColIdx name g.columns with
    | some j =>
      constructor
      · intro h
        exact Option.noConfusion h
      · intro h
        obtain ⟨h1, h2, _⟩ := (findColIdx_some_iff name g.columns j).mp hf
        exact absurd h2 (h g (List.mem_cons_self g rest) _ (getD_mem h1))
    | none =>
      constructor
      · intro h g' hg' c hc
        have h' : (findGroupCol name rest).map (fun p => (p.1 + 1, p.2)) = none := h
        rw [Option.map_eq_none'] at h'
        rcases List.mem_cons.mp hg' with rfl | hmem
        · exact (findColIdx_none_iff name g'.columns).mp hf c hc
        · exact (ih.mp h') g' hmem c hc
      · intro h
        show (findGroupCol name rest).map (fun p => (p.1 + 1, p.2)) = none
        rw [Option.map_eq_none']
        exact ih.mpr (fun g' hmem c hc => h g' (List.mem_cons_of_mem _ hmem) c hc)

/-- A group-scan returns `some (i, j)` exactly when group `i`'s column
scan returns `j` and every earlier group has no match at all. -/
theorem findGroupCol_some_iff (name : String) (gs : List Group) (i j : Nat) :
    findGroupCol name gs = some (i, j) ↔
      (i < gs.length ∧ findColIdx name (gs.getD i default).columns = some j ∧
        ∀ i' < i, ∀ c ∈ (gs.getD i' default).columns, c.column_name ≠ name) := by
  induction gs generalizing i with
  | nil => simp [findGroupCol]
  | cons g rest ih =>
    rw [findGroupCol_cons]
    cases hf : findColIdx name g.columns with
    | some j0 =>
      constructor
      · intro h
        have h' : ((0 : Nat), j0) = (i, j) := Option.some.inj h
        simp only [Prod.mk.injEq] at h'
        obtain ⟨hi, hj⟩ := h'
        subst hi
        subst hj
        exact ⟨Nat.succ_pos _, by simpa using hf, by omega⟩
      · rintro ⟨h1, h2, h3⟩
        cases i with
        | zero =>
          show some ((0 : Nat), j0) = some (0, j)
          rw [List.getD_cons_zero] at h2
          rw [Option.some.inj (hf.symm.trans h2)]
        | succ i =>
          obtain ⟨hj0, hn, _⟩ := (findColIdx_some_iff name g.columns j0).mp hf
          exact absurd hn (h3 0 (Nat.succ_pos i) _ (getD_mem hj0))
    | none =>
      constructor
      · intro h
        have h' : (findGroupCol name rest).map (fun p => (p.1 + 1, p.2)) = some (i, j) := h
        rw [Option.map_eq_some'] at h'
        obtain ⟨⟨i0, j0⟩, hp, hinj⟩ := h'
        simp only [Prod.mk.injEq] at hinj
        obtain ⟨hi, hj⟩ := hinj
        subst hj
        cases i with
        | zero => exact absurd hi (by omega)
        | succ i =>
          have hi0 : i0 = i := by omega
          rw [hi0] at hp
          obtain ⟨h1, h2, h3⟩ := (ih i).mp hp
          refine ⟨by simpa using h1, by simpa using h2, ?_⟩
          intro i' hi' c hc
          cases i' with
          | zero => exact (findColIdx_none_iff name g.columns).mp hf c (by simpa using hc)
          | succ i' => exact h3 i' (by omega) c (by simpa using hc)
      · rintro ⟨h1, h2, h3⟩
        cases i with
        | zero =>
          rw [List.getD_cons_zero] at h2
          simp [hf] at h2
        | succ i =>
          show (findGroupCol name rest).map (fun p => (p.1 + 1, p.2)) = some (i + 1, j)
          rw [Option.map_eq_some']
          refine ⟨(i, j), (ih i).mpr ⟨by simpa using h1, by simpa using h2, ?_⟩, rfl⟩
          intro i' hi' c hc
          exact h3 (i' + 1) (by omega) c (by simpa using hc)

/-- First-match characterisation of name resolution: within the scanned
groups (`groups.take num_groups`), position `(gi, ci)` holds `name`, no
earlier column of the same group holds it, and no column of any earlier
group holds it. -/
def first_match (md : Metadata) (name : String) (gi ci : Nat) : Prop :=
  gi < (md.groups.take md.num_groups).length ∧
  ci < ((md.groups.take md.num_groups).getD gi default).columns.length ∧
  (((md.groups.take md.num_groups).getD gi default).columns.getD ci default).column_name
      = name ∧
  (∀ k < ci,
    (((md.groups.take md.num_groups).getD gi default).columns.getD k default).column_name
      ≠ name) ∧
  (∀ i' < gi, ∀ c ∈ ((md.groups.take md.num_groups).getD i' default).columns,
    c.column_name ≠ name)

instance (md : Metadata) (name : String) (gi ci : Nat) :
    Decidable (first_match md name gi ci) := by
  unfold first_match
  infer_instance

/-- A successful resolution is a first match (shared helper). -/
theorem gci_some_first_match (md : Metadata) (name : String) (gi ci : Nat)
    (h : get_column_info md name = ((gi : Int), (ci : Int))) :
    first_match md name gi ci := by
  by_cases hname : name = ""
  · rw [get_column_info, if_pos hname] at h
    have h1 : (-1 : Int) = (gi : Int) := congrArg Prod.fst h
    omega
  · rw [get_column_info, if_neg hname] at h
    cases hg : findGroupCol name (md.groups.take md.num_groups) with
    | none =>
      rw [hg] at h
      have h1 : (-1 : Int) = (gi : Int) := congrArg Prod.fst h
      omega
    | some p =>
      obtain ⟨i, j⟩ := p
      rw [hg] at h
      have hi : i = gi := by
        have := congrArg Prod.fst h
        simpa using this
      have hj : j = ci := by
        have := congrArg Prod.snd h
        simpa using this
      subst hi
      subst hj
      obtain ⟨h1, h2, h3⟩ :=
        (findGroupCol_some_iff name (md.groups.take md.num_groups) i j).mp hg
      obtain ⟨h4, h5, h6⟩ := (findColIdx_some_iff name _ j).mp h2
      exact ⟨h1, h4, h5, h6, h3⟩

/-- C9: `get_column_info` scans groups in declaration order and columns in
order within each group, returning the first match; an empty name yields
`(-1, -1)`, a name present in no scanned group yields `(-1, -1)`, and a
result `(gi, ci)` is exactly a first match (so duplicated names resolve
to their first occurrence, later ones being shadowed). -/
theorem get_column_info_spec (md : Metadata) (name : String) :
    get_column_info md "" = (-1, -1)
    ∧ ((∀ g ∈ md.groups.take md.num_groups, ∀ c ∈ g.columns, c.column_name ≠ name) →
        get_column_info md name = (-1, -1))
    ∧ (∀ gi ci : Nat, get_column_info md name = ((gi : Int), (ci : Int)) →
        first_match md name gi ci)
    ∧ (∀ gi ci : Nat, name ≠ "" → first_match md name gi ci →
        get_column_info md name = ((gi : Int), (ci : Int))) := by
  refine ⟨by simp [get_column_info], ?_, fun gi ci h => gci_some_first_match md name gi ci h, ?_⟩
  · intro habs
    by_cases hname : name = ""
    · simp [get_column_info, hname]
    · rw [get_column_info, if_neg hname,
        (findGroupCol_none_iff name (md.groups.take md.num_groups)).mpr habs]
  · intro gi ci hname hfm
    obtain ⟨h1, h2, h3, h4, h5⟩ := hfm
    rw [get_column_info, if_neg hname,
      (findGroupCol_some_iff name (md.groups.take md.num_groups) gi ci).mpr
        ⟨h1, (findColIdx_some_iff name _ ci).mpr ⟨h2, h3, h4⟩, h5⟩]

/-- Witness for `get_column_info_spec`: in `mdDup` the name `x` occurs in
both groups and resolves to its first occurrence `(0, 0)`; the name `zz`
occurs nowhere and yields `(-1, -1)`. -/
theorem get_column_info_spec_witness :
    get_column_info mdDup "x" = (0, 0) ∧ get_column_info mdDup "zz" = (-1, -1) :=
  ⟨(get_column_info_spec mdDup "x").2.2.2 0 0 (by decide) (by decide),
    (get_column_info_spec mdDup "zz").2.1 (by decide)⟩

/-- Indexed access into a mapped range. -/
theorem getD_map_range {α : Type} (f : Nat → α) (n i : Nat) (d : α) (hi : i < n) :
    ((List.range n).map f).getD i d = f i := by
  rw [List.getD_eq_getElem _ _ (by simpa using hi)]
  simp

/-- Closed form of `project_single_column` on a resolvable column: the
per-row reads at the group's offset. -/
theorem project_single_column_eq (md : Metadata) (file : List ℚ) (name : String)
    (gi ci : Nat) (h : get_column_info md name = ((gi : Int), (ci : Int))) :
    project_single_column md file name =
      (List.range md.num_rows).map (fun i =>
        readFloatAt file ((md.groups.getD gi default).offset
          + (i * (md.groups.getD gi default).num_columns + ci) * 4)) := by
  unfold project_single_column
  rw [h]
  have hcond : ¬ (((gi : Int), (ci : Int)).1 = -1 ∨ ((gi : Int), (ci : Int)).2 = -1) := by
    rintro (h1 | h1) <;> simp at h1
  rw [if_neg hcond]
  simp [Int.toNat_natCast]

/-- C4: for a column name resolving to `(gi, ci)`, `project_single_column`
returns exactly `num_rows` values, the value at position `row` being the
float stored at byte offset
`group.offset + (row * group.num_columns + ci) * 4`. -/
theorem project_single_column_spec (md : Metadata) (file : List ℚ) (name : String)
    (gi ci : Nat) (h : get_column_info md name = ((gi : Int), (ci : Int))) :
    (project_single_column md file name).length = md.num_rows
    ∧ ∀ row < md.num_rows,
        (project_single_column md file name).getD row 0 =
          readFloatAt file ((md.groups.getD gi default).offset
            + (row * (md.groups.getD gi default).num_columns + ci) * 4) := by
  rw [project_single_column_eq md file name gi ci h]
  constructor
  · simp
  · intro row hrow
    rw [getD_map_range _ _ _ _ hrow]

/-- Witness for `project_single_column_spec` on the concrete table `mdEx`:
column `c` resolves to group 1, column 0, and projecting it yields 2
values, the one at row 1 coming from byte offset 16 + 4. -/
theorem project_single_column_spec_witness :
    (project_single_column mdEx fileEx "c").length = 2
    ∧ (project_single_column mdEx fileEx "c").getD 1 0 =
        readFloatAt fileEx ((mdEx.groups.getD 1 default).offset
          + (1 * (mdEx.groups.getD 1 default).num_columns + 0) * 4) :=
  ⟨(project_single_column_spec mdEx fileEx "c" 1 0 (by decide)).1,
    (project_single_column_spec mdEx fileEx "c" 1 0 (by decide)).2 1 (by decide)⟩

/-- C2: for a resolvable filter column, `filter` returns exactly the
projected values of the rows passing `apply_filter`, in row order; the
six operators compare as claimed, equality and inequality against the
fixed epsilon 1e-6 and the four orderings exactly. -/
theorem filter_one_spec (md : Metadata) (file : List ℚ) (name : String) (op : Int)
    (v : ℚ) (gi ci : Nat) (h : get_column_info md name = ((gi : Int), (ci : Int))) :
    filter md file name op v =
      ((List.range md.num_rows).filter (fun r =>
          apply_filter (readCell file (md.groups.getD gi default) r ci) op v)).map
        (fun r => readCell file (md.groups.getD gi default) r ci)
    ∧ (∀ x t : ℚ, apply_filter x EQUAL t = decide (|x - t| < 1 / 1000000))
    ∧ (∀ x t : ℚ, apply_filter x NOT_EQUAL t = decide (1 / 1000000 ≤ |x - t|))
    ∧ (∀ x t : ℚ, apply_filter x GREATER_THAN t = decide (t < x))
    ∧ (∀ x t : ℚ, apply_filter x GREATER_EQUAL t = decide (t ≤ x))
    ∧ (∀ x t : ℚ, apply_filter x LESS_THAN t = decide (x < t))
    ∧ (∀ x t : ℚ, apply_filter x LESS_EQUAL t = decide (x ≤ t)) := by
  have hc : project_single_column md file name =
      (List.range md.num_rows).map
        (fun r => readCell file (md.groups.getD gi default) r ci) :=
    project_single_column_eq md file name gi ci h
  refine ⟨?_, ?_, ?_, ?_, ?_, ?_, ?_⟩
  · show (let column_data := project_single_column md file name
      if column_data = [] then []
      else column_data.filter (fun value => apply_filter value op v)) = _
    rw [hc]
    by_cases hemp : (List.range md.num_rows).map
        (fun r => readCell file (md.groups.getD gi default) r ci) = []
    · rw [if_pos hemp]
      have hz : md.num_rows = 0 := by simpa using hemp
      simp [hz]
    · rw [if_neg hemp, List.filter_map]
      rfl
  · intro x t
    simp [apply_filter, GREATER_THAN, GREATER_EQUAL, LESS_THAN, LESS_EQUAL,
      EQUAL, NOT_EQUAL, EPSILON_eq, qAbs_eq_abs]
  · intro x t
    simp [apply_filter, GREATER_THAN, GREATER_EQUAL, LESS_THAN, LESS_EQUAL,
      EQUAL, NOT_EQUAL, EPSILON_eq, qAbs_eq_abs]
  · intro x t
    rfl
  · intro x t
    rfl
  · intro x t
    rfl
  · intro x t
    rfl

/-- Witness for `filter_one_spec`: filtering column `a` of `mdEx` with
`> 2` keeps exactly the passing value `3`, in row order. -/
theorem filter_one_spec_witness : filter mdEx fileEx "a" GREATER_THAN 2 = [3] := by
  have h := (filter_one_spec mdEx fileEx "a" GREATER_THAN 2 0 0 (by decide)).1
  rw [h]
  decide

/-- An empty column name never resolves. -/
theorem gci_empty (md : Metadata) : get_column_info md "" = (-1, -1) := by
  simp [get_column_info]

/-- A resolution result is either the failure pair or a pair of
non-negative indices. -/
theorem gci_fst_cases (md : Metadata) (n : String) :
    (get_column_info md n).1 = -1 ∨
      (0 ≤ (get_column_info md n).1 ∧ 0 ≤ (get_column_info md n).2) := by
  by_cases hn : n = ""
  · left
    simp [get_column_info, hn]
  · unfold get_column_info
    rw [if_neg hn]
    cases hg : findGroupCol n (md.groups.take md.num_groups) with
    | none => exact Or.inl rfl
    | some p =>
      obtain ⟨i, j⟩ := p
      exact Or.inr ⟨Int.natCast_nonneg i, Int.natCast_nonneg j⟩

/-- Unfolding equation of the `verify_same_group` loop on a cons cell. -/
theorem vsg_loop_cons (md : Metadata) (fg : Int) (c : String) (rest : List String) :
    vsg_loop md fg (c :: rest) =
      if c = "" then -1
      else if (get_column_info md c).1 = -1 ∨ (get_column_info md c).1 ≠ fg then -1
      else vsg_loop md fg rest := rfl

/-- The loop of `verify_same_group` returns the first group or `-1`. -/
theorem vsg_loop_cases (md : Metadata) (fg : Int) (cs : List String) :
    vsg_loop md fg cs = fg ∨ vsg_loop md fg cs = -1 := by
  induction cs with
  | nil => exact Or.inl rfl
  | cons c rest ih =>
    rw [vsg_loop_cons]
    by_cases hc : c = ""
    · rw [if_pos hc]
      exact Or.inr rfl
    · rw [if_neg hc]
      by_cases hq : (get_column_info md c).1 = -1 ∨ (get_column_info md c).1 ≠ fg
      · rw [if_pos hq]
        exact Or.inr rfl
      · rw [if_neg hq]
        exact ih

/-- The loop succeeds exactly when every remaining name resolves to the
first group. -/
theorem vsg_loop_eq_iff (md : Metadata) (fg : Int) (cs : List String) (hfg : fg ≠ -1) :
    vsg_loop md fg cs = fg ↔ ∀ c ∈ cs, (get_column_info md c).1 = fg := by
  induction cs with
  | nil => simp [vsg_loop]
  | cons c rest ih =>
    rw [vsg_loop_cons]
    by_cases hc : c = ""
    · rw [if_pos hc]
      constructor
      · intro h
        exact absurd h.symm hfg
      · intro h
        have hh := h c (List.mem_cons_self c rest)
        rw [hc, gci_empty] at hh
        exact absurd hh.symm hfg
    · rw [if_neg hc]
      by_cases hq : (get_column_info md c).1 = -1 ∨ (get_column_info md c).1 ≠ fg
      · rw [if_pos hq]
        constructor
        · intro h
          exact absurd h.symm hfg
        · intro h
          have hcfg := h c (List.mem_cons_self c rest)
          rcases hq with h1 | h1
          · rw [hcfg] at h1
            exact absurd h1 hfg
          · exact absurd hcfg h1
      · rw [if_neg hq]
        push_neg at hq
        obtain ⟨h1, h2⟩ := hq
        rw [ih]
        constructor
        · intro h c' hc'
          rcases List.mem_cons.mp hc' with rfl | hm
          · exact h2
          · exact h c' hm
        · intro h c' hm
          exact h c' (List.mem_cons_of_mem _ hm)

/-- Unfolding equation of `verify_same_group` on a cons cell. -/
theorem verify_same_group_cons (md : Metadata) (c0 : String) (rest : List String) :
    verify_same_group md (c0 :: rest) =
      if (get_column_info md c0).1 = -1 then -1
      else vsg_loop md (get_column_info md c0).1 rest := rfl

/-- C7: a multi-column projection fails (returns the empty result, never
partial data) exactly when the requested names do not all resolve into
one group, and succeeds with one `num_rows`-long sequence per name when
they do; `project_and_filter` imposes the same constraint on the union of
the projected names and the filter column. -/
theorem project_same_group_spec (md : Metadata) (file : List ℚ) (names : List String)
    (fcol : String) (op : Int) (v : ℚ) :
    (verify_same_group md names = -1 ↔
      ¬ (names ≠ [] ∧ ∀ n ∈ names, 0 ≤ (get_column_info md n).1 ∧
          (get_column_info md n).1 = (get_column_info md (names.headD "")).1))
    ∧ (verify_same_group md names = -1 → project md file names = [])
    ∧ (verify_same_group md names ≠ -1 →
        (project md file names).length = names.length
        ∧ ∀ c ∈ project md file names, c.length = md.num_rows)
    ∧ (verify_same_group md
          (if fcol ∈ names then names else names ++ [fcol]) = -1 →
        project_and_filter md file names fcol op v = []) := by
  refine ⟨⟨?_, ?_⟩, ?_, ?_, ?_⟩
  · intro hv
    rintro ⟨hne, hall⟩
    cases names with
    | nil => exact hne rfl
    | cons c0 rest =>
      have h0 := hall c0 (List.mem_cons_self c0 rest)
      have hfg : (get_column_info md c0).1 ≠ -1 := by
        have := h0.1
        omega
      rw [verify_same_group_cons, if_neg hfg] at hv
      have hl : vsg_loop md (get_column_info md c0).1 rest = (get_column_info md c0).1 := by
        rw [vsg_loop_eq_iff md _ rest hfg]
        intro c hc
        exact (hall c (List.mem_cons_of_mem _ hc)).2
      rw [hl] at hv
      exact hfg hv
  · intro hneg
    by_contra hv
    apply hneg
    cases names with
    | nil => exact absurd rfl hv
    | cons c0 rest =>
      rw [verify_same_group_cons] at hv
      by_cases hfg : (get_column_info md c0).1 = -1
      · rw [if_pos hfg] at hv
        exact absurd rfl hv
      · rw [if_neg hfg] at hv
        rcases vsg_loop_cases md (get_column_info md c0).1 rest with hl | hl
        · have hall := (vsg_loop_eq_iff md _ rest hfg).mp hl
          have hnn : 0 ≤ (get_column_info md c0).1 := by
            rcases gci_fst_cases md c0 with h | h
            · exact absurd h hfg
            · exact h.1
          refine ⟨by simp, ?_⟩
          intro n hn
          rcases List.mem_cons.mp hn with rfl | hm
          · exact ⟨hnn, rfl⟩
          · have heq := hall n hm
            rw [heq]
            exact ⟨hnn, rfl⟩
        · exact absurd hl hv
  · intro hv
    simp only [project]
    rw [hv]
    rfl
  · intro hv
    simp only [project]
    rw [if_neg hv, List.length_map, List.length_map]
    refine ⟨rfl, ?_⟩
    intro c hc
    rw [List.mem_map] at hc
    obtain ⟨ci, hci, hcc⟩ := hc
    rw [← hcc]
    simp
  · intro hv
    simp only [project_and_filter]
    rw [hv]
    rfl

/-- Witness for `project_same_group_spec`: on `mdEx`, projecting the
cross-group pair `a`, `c` fails with the empty result; projecting the
same-group pair `a`, `b` yields two sequences; `project_and_filter`
rejects the cross-group union `b`, `c`. -/
theorem project_same_group_spec_witness :
    project mdEx fileEx ["a", "c"] = []
    ∧ (project mdEx fileEx ["a", "b"]).length = 2
    ∧ project_and_filter mdEx fileEx ["b"] "c" GREATER_THAN 0 = [] :=
  ⟨(project_same_group_spec mdEx fileEx ["a", "c"] "a" 0 0).2.1 (by decide),
    ((project_same_group_spec mdEx fileEx ["a", "b"] "a" 0 0).2.2.1 (by decide)).1,
    (project_same_group_spec mdEx fileEx ["b"] "c" GREATER_THAN 0).2.2.2 (by decide)⟩

/-- Rows whose filter-column value passes the predicate, in row order. -/
def passing_rows (md : Metadata) (file : List ℚ) (g : Group) (fidx : Nat)
    (op : Int) (v : ℚ) : List Nat :=
  (List.range md.num_rows).filter (fun r => apply_filter (readCell file g r fidx) op v)

/-- Re-zipping a zipped list with the same right-hand list fuses. -/
theorem zipWith_zipWith_same {α β γ δ : Type} (f : γ → β → δ) (g : α → β → γ)
    (as : List α) (bs : List β) :
    List.zipWith f (List.zipWith g as bs) bs =
      List.zipWith (fun a b => f (g a b) b) as bs := by
  induction as generalizing bs with
  | nil => simp
  | cons a as ih =>
    cases bs with
    | nil => simp
    | cons b bs => simp [ih]

/-- Zipping with a projection to the left list is the identity when the
right list is at least as long. -/
theorem zipWith_left_eq {α β : Type} (as : List α) (bs : List β)
    (h : as.length ≤ bs.length) :
    List.zipWith (fun a _ => a) as bs = as := by
  induction as generalizing bs with
  | nil => simp
  | cons a as ih =>
    cases bs with
    | nil => simp at h
    | cons b bs =>
      simp only [List.zipWith_cons_cons, List.cons.injEq]
      exact ⟨trivial, ih bs (by simpa using h)⟩

/-- Extensionality for `zipWith`. -/
theorem zipWith_ext {α β γ : Type} (f g : α → β → γ) (as : List α) (bs : List β)
    (h : ∀ a b, f a b = g a b) : List.zipWith f as bs = List.zipWith g as bs := by
  induction as generalizing bs with
  | nil => simp
  | cons a as ih =>
    cases bs with
    | nil => simp
    | cons b bs => simp [h, ih]

/-- Appending per-index over two maps of the same list collapses to one
map. -/
theorem zipWith_map_same {α β γ : Type} (X : β → List γ) (f : α → β) (l : List α) :
    List.zipWith (fun col ci => col ++ X ci) (l.map (fun _ => ([] : List γ)))
        (l.map f) =
      l.map (fun n => X (f n)) := by
  induction l with
  | nil => rfl
  | cons a l ih =>
    simp only [List.map_cons, List.zipWith_cons_cons, List.nil_append]
    rw [ih]

/-- Closed form of the `project_and_filter` row scan: starting from
columns `acc`, the fold appends to each output column the projected
values of exactly the passing rows, in row order. -/
theorem paf_foldl (file : List ℚ) (g : Group) (idxs : List Nat) (fidx : Nat)
    (op : Int) (v : ℚ) (rs : List Nat) (acc : List (List ℚ))
    (hlen : acc.length = idxs.length) :
    rs.foldl (paf_step file g idxs fidx op v) acc =
      List.zipWith (fun col ci =>
          col ++ (rs.filter (fun r => apply_filter (readCell file g r fidx) op v)).map
            (fun r => readCell file g r ci))
        acc idxs := by
  induction rs generalizing acc with
  | nil =>
    simp only [List.foldl_nil, List.filter_nil, List.map_nil, List.append_nil]
    exact (zipWith_left_eq acc idxs (le_of_eq hlen)).symm
  | cons r rs ih =>
    rw [List.foldl_cons]
    by_cases hp : apply_filter (readCell file g r fidx) op v
    · have hstep : paf_step file g idxs fidx op v acc r =
          List.zipWith (fun col ci => col ++ [readCell file g r ci]) acc idxs := by
        simp [paf_step, hp]
      rw [hstep, ih _ (by rw [List.length_zipWith, hlen, Nat.min_self]),
        zipWith_zipWith_same]
      rw [show (r :: rs).filter
            (fun r => apply_filter (readCell file g r fidx) op v) =
          r :: rs.filter (fun r => apply_filter (readCell file g r fidx) op v) by
        simp [List.filter_cons, hp]]
      apply zipWith_ext
      intro a b
      simp

    · have hstep : paf_step file g idxs fidx op v acc r = acc := by
        simp [paf_step, hp]
      rw [hstep, ih _ hlen]
      rw [show (r :: rs).filter
            (fun r => apply_filter (readCell file g r fidx) op v) =
          rs.filter (fun r => apply_filter (readCell file g r fidx) op v) by
        simp [List.filter_cons, hp]]

/-- Indexed access into a map, with any defaults. -/
theorem getD_map_lt {α β : Type} (f : α → β) (l : List α) (i : Nat) (d : β) (d' : α)
    (hi : i < l.length) : (l.map f).getD i d = f (l.getD i d') := by
  rw [List.getD_eq_getElem _ _ (by simpa using hi), List.getD_eq_getElem _ _ hi]
  simp

/-- Closed form of `project_and_filter` when the combined column set
verifies into group `gIdx`: one output column per projected name, each
the map of that name's values over the shared passing-row list. -/
theorem project_and_filter_eq (md : Metadata) (file : List ℚ)
    (proj : List String) (fcol : String) (op : Int) (v : ℚ) (gIdx : Nat)
    (hv : verify_same_group md (if fcol ∈ proj then proj else proj ++ [fcol])
        = (gIdx : Int)) :
    project_and_filter md file proj fcol op v =
      proj.map (fun n =>
        (passing_rows md file (md.groups.getD gIdx default)
            ((get_column_info md fcol).2.toNat) op v).map
          (fun r => readCell file (md.groups.getD gIdx default) r
            ((get_column_info md n).2.toNat))) := by
  simp only [project_and_filter]
  rw [hv]
  rw [if_neg (show ¬ ((gIdx : Int) = -1) by omega), Int.toNat_natCast]
  rw [paf_foldl _ _ _ _ _ _ _ _ (by simp)]
  exact zipWith_map_same _ _ proj

/-- C3: in `project_and_filter`, every output column has the same length,
and for every output index the value of every projected column comes from
the same original row — the corresponding entry of the shared
passing-row list — so no index mixes values from two different rows. -/
theorem project_and_filter_alignment (md : Metadata) (file : List ℚ)
    (proj : List String) (fcol : String) (op : Int) (v : ℚ) (gIdx : Nat)
    (hv : verify_same_group md (if fcol ∈ proj then proj else proj ++ [fcol])
        = (gIdx : Int)) :
    (project_and_filter md file proj fcol op v).length = proj.length
    ∧ ∀ cpos < proj.length,
        (project_and_filter md file proj fcol op v).getD cpos [] =
          (passing_rows md file (md.groups.getD gIdx default)
              ((get_column_info md fcol).2.toNat) op v).map
            (fun r => readCell file (md.groups.getD gIdx default) r
              ((get_column_info md (proj.getD cpos "")).2.toNat)) := by
  rw [project_and_filter_eq md file proj fcol op v gIdx hv]
  constructor
  · simp
  · intro cpos hpos
    rw [getD_map_lt _ _ _ _ "" hpos]

/-- Witness for `project_and_filter_alignment` on `mdEx`: projecting
`a`, `b` filtered by `a > 2` keeps row 1 only, and both output columns
take their index-0 entry from that same row. -/
theorem project_and_filter_alignment_witness :
    (project_and_filter mdEx fileEx ["a", "b"] "a" GREATER_THAN 2).length = 2
    ∧ (project_and_filter mdEx fileEx ["a", "b"] "a" GREATER_THAN 2).getD 1 [] =
        (passing_rows mdEx fileEx (mdEx.groups.getD 0 default)
            ((get_column_info mdEx "a").2.toNat) GREATER_THAN 2).map
          (fun r => readCell fileEx (mdEx.groups.getD 0 default) r
            ((get_column_info mdEx (["a", "b"].getD 1 "")).2.toNat)) :=
  ⟨(project_and_filter_alignment mdEx fileEx ["a", "b"] "a" GREATER_THAN 2 0
      (by decide)).1,
    (project_and_filter_alignment mdEx fileEx ["a", "b"] "a" GREATER_THAN 2 0
      (by decide)).2 1 (by decide)⟩

/-- Per-group byte advance of the `add_row` output offset: the existing
`num_rows x num_columns` block plus the `R` appended row slices. -/
def offset_step (md : Metadata) (R : Nat) (gidx : Nat) : Nat :=
  md.num_rows * (md.groups.getD gidx default).num_columns * 4
    + R * (md.groups.getD gidx default).num_columns * 4

/-- Running cumulative output byte offset assigned to group `gi` by
`add_row` when `R` rows are appended. -/
def new_offset (md : Metadata) (R : Nat) (gi : Nat) : Nat :=
  ((List.range gi).map (offset_step md R)).sum

/-- Cell count of group `i`'s output block after appending `R` rows. -/
def block_cells (md : Metadata) (R : Nat) (i : Nat) : Nat :=
  (md.num_rows + R) * (md.groups.getD i default).num_columns

/-- Total cell count of the output blocks of the groups before `gi`. -/
def block_sum (md : Metadata) (R : Nat) (gi : Nat) : Nat :=
  ((List.range gi).map (block_cells md R)).sum

/-- Unfolding equation of `add_row_go` for one group step. -/
theorem add_row_go_succ (md : Metadata) (file : List ℚ) (rows : List (List ℚ))
    (n gidx cur : Nat) :
    add_row_go md file rows (n + 1) gidx cur =
      ({ md.groups.getD gidx default with offset := cur } ::
          (add_row_go md file rows n (gidx + 1)
            (cur + md.num_rows * (md.groups.getD gidx default).num_columns * 4
              + rows.length * (md.groups.getD gidx default).num_columns * 4)).1,
        group_block md file rows gidx ++
          (add_row_go md file rows n (gidx + 1)
            (cur + md.num_rows * (md.groups.getD gidx default).num_columns * 4
              + rows.length * (md.groups.getD gidx default).num_columns * 4)).2) := rfl

/-- Shifting a sum over an initial range by one element. -/
theorem range_succ_sum_shift (f : Nat → Nat) (g gidx : Nat) :
    ((List.range (g + 1)).map (fun i => f (gidx + i))).sum =
      f gidx + ((List.range g).map (fun i => f (gidx + 1 + i))).sum := by
  rw [List.range_succ_eq_map, List.map_cons, List.sum_cons, List.map_map, Nat.add_zero]
  congr 1
  apply congrArg List.sum
  apply List.map_congr_left
  intro i _
  show f (gidx + (i + 1)) = f (gidx + 1 + i)
  congr 1
  omega

/-- The appended rows contribute `R * num_columns` cells per group. -/
theorem new_row_values_length (c sc : Nat) (rows : List (List ℚ)) :
    (new_row_values c sc rows).length = rows.length * c := by
  induction rows with
  | nil => simp [new_row_values]
  | cons row rest ih =>
    show ((List.range c).map _ ++ new_row_values c sc rest).length = _
    rw [List.length_append, List.length_map, List.length_range, ih, List.length_cons]
    ring

/-- An output block holds the old and the new rows of its group. -/
theorem group_block_length (md : Metadata) (file : List ℚ) (rows : List (List ℚ))
    (gidx : Nat) :
    (group_block md file rows gidx).length =
      md.num_rows * (md.groups.getD gidx default).num_columns
        + rows.length * (md.groups.getD gidx default).num_columns := by
  rw [group_block, List.length_append, List.length_map, List.length_range,
    new_row_values_length]

/-- The per-group block lengths sum to the cumulative cell counts. -/
theorem block_length_sum (md : Metadata) (file : List ℚ) (rows : List (List ℚ))
    (gi : Nat) :
    ((List.range gi).map (fun i => (group_block md file rows i).length)).sum =
      block_sum md rows.length gi := by
  apply congrArg List.sum
  apply List.map_congr_left
  intro i _
  rw [group_block_length, block_cells]
  ring

/-- The byte offsets assigned by `add_row` measure whole cell blocks. -/
theorem new_offset_eq (md : Metadata) (R : Nat) (gi : Nat) :
    new_offset md R gi = 4 * block_sum md R gi := by
  induction gi with
  | zero => rfl
  | succ n ih =>
    rw [new_offset, List.range_succ, List.map_append, List.sum_append,
      block_sum, List.range_succ, List.map_append, List.sum_append,
      ← new_offset, ← block_sum, ih]
    simp only [List.map_cons, List.map_nil, List.sum_cons, List.sum_nil,
      offset_step, block_cells]
    ring

/-- Length of the rewritten group-descriptor list. -/
theorem add_row_go_fst_length (md : Metadata) (file : List ℚ) (rows : List (List ℚ)) :
    ∀ n gidx cur, (add_row_go md file rows n gidx cur).1.length = n := by
  intro n
  induction n with
  | zero => intro gidx cur; rfl
  | succ n ih =>
    intro gidx cur
    rw [add_row_go_succ]
    show _ + 1 = n + 1
    rw [ih]

/-- Entry `g` of the rewritten descriptors: the old group with its offset
replaced by the running cumulative output position. -/
theorem add_row_go_fst_getD (md : Metadata) (file : List ℚ) (rows : List (List ℚ)) :
    ∀ n gidx cur g, g < n →
      (add_row_go md file rows n gidx cur).1.getD g default =
        { md.groups.getD (gidx + g) default with
            offset := cur + ((List.range g).map
              (fun i => offset_step md rows.length (gidx + i))).sum } := by
  intro n
  induction n with
  | zero => intro gidx cur g hg; omega
  | succ n ih =>
    intro gidx cur g hg
    rw [add_row_go_succ]
    cases g with
    | zero =>
      show ({ md.groups.getD gidx default with offset := cur } : Group) = _
      rw [Nat.add_zero]
      show _ = { md.groups.getD gidx default with offset := cur + ([] : List Nat).sum }
      rw [List.sum_nil, Nat.add_zero]
    | succ g =>
      show (add_row_go md file rows n (gidx + 1) _).1.getD g default = _
      rw [ih _ _ g (by omega), range_succ_sum_shift (offset_step md rows.length) g gidx]
      have harith : gidx + 1 + g = gidx + (g + 1) := by omega
      rw [harith]
      have harith2 :
          cur + md.num_rows * (md.groups.getD gidx default).num_columns * 4
              + rows.length * (md.groups.getD gidx default).num_columns * 4
              + ((List.range g).map
                  (fun i => offset_step md rows.length (gidx + 1 + i))).sum =
            cur + (offset_step md rows.length gidx
              + ((List.range g).map
                  (fun i => offset_step md rows.length (gidx + 1 + i))).sum) := by
        rw [offset_step]
        omega
      rw [harith2]

/-- The rewritten descriptors keep each group's column list. -/
theorem add_row_go_fst_columns (md : Metadata) (file : List ℚ) (rows : List (List ℚ)) :
    ∀ n gidx cur,
      (add_row_go md file rows n gidx cur).1.map Group.columns =
        (List.range n).map (fun k => (md.groups.getD (gidx + k) default).columns) := by
  intro n
  induction n with
  | zero => intro gidx cur; rfl
  | succ n ih =>
    intro gidx cur
    rw [add_row_go_succ, List.range_succ_eq_map, List.map_cons, List.map_cons,
      List.map_map, Nat.add_zero]
    show (md.groups.getD gidx default).columns :: _ = _
    congr 1
    rw [ih]
    apply List.map_congr_left
    intro i _
    show (md.groups.getD (gidx + 1 + i) default).columns =
      (md.groups.getD (gidx + (i + 1)) default).columns
    have harith : gidx + 1 + i = gidx + (i + 1) := by omega
    rw [harith]

/-- Cell `j` of group `gidx + g`'s output block, addressed from the start
of the concatenated output region. -/
theorem add_row_go_snd_getD (md : Metadata) (file : List ℚ) (rows : List (List ℚ)) :
    ∀ n gidx cur g j, g < n → j < (group_block md file rows (gidx + g)).length →
      (add_row_go md file rows n gidx cur).2.getD
          (((List.range g).map
            (fun i => (group_block md file rows (gidx + i)).length)).sum + j) 0 =
        (group_block md file rows (gidx + g)).getD j 0 := by
  intro n
  induction n with
  | zero => intro gidx cur g j hg hj; omega
  | succ n ih =>
    intro gidx cur g j hg hj
    rw [add_row_go_succ]
    cases g with
    | zero =>
      show (group_block md file rows gidx ++ _).getD (([] : List Nat).sum + j) 0 = _
      rw [List.sum_nil, Nat.zero_add]
      rw [Nat.add_zero] at hj
      exact List.getD_append _ _ _ _ hj
    | succ g =>
      rw [range_succ_sum_shift (fun i => (group_block md file rows i).length) g gidx]
      show (group_block md file rows gidx ++ _).getD _ 0 = _
      rw [List.getD_append_right _ _ _ _ (by omega)]
      have hidx : (group_block md file rows gidx).length +
          (List.map (fun i => (group_block md file rows (gidx + 1 + i)).length)
            (List.range g)).sum + j - (group_block md file rows gidx).length =
          (List.map (fun i => (group_block md file rows (gidx + 1 + i)).length)
            (List.range g)).sum + j := by
        omega
      rw [hidx]
      have harith : gidx + (g + 1) = gidx + 1 + g := by omega
      rw [harith] at hj ⊢
      exact ih _ _ g j (by omega) hj

/-- The copied part of a block is the source's cells at the old offset. -/
theorem group_block_getD_old (md : Metadata) (file : List ℚ) (rows : List (List ℚ))
    (gidx k : Nat) (hk : k < md.num_rows * (md.groups.getD gidx default).num_columns) :
    (group_block md file rows gidx).getD k 0 =
      readFloatAt file ((md.groups.getD gidx default).offset + 4 * k) := by
  rw [group_block, List.getD_append _ _ _ _ (by simpa using hk),
    getD_map_range _ _ _ _ hk]

/-- Indexing the appended slices: entry `r * c + ci` is new row `r`'s
value at logical column `sc + ci`. -/
theorem new_row_values_getD (c sc : Nat) (rows : List (List ℚ)) :
    ∀ r ci, r < rows.length → ci < c →
      (new_row_values c sc rows).getD (r * c + ci) 0 =
        (rows.getD r []).getD (sc + ci) 0 := by
  induction rows with
  | nil =>
    intro r ci hr hc
    simp at hr
  | cons row rest ih =>
    intro r ci hr hc
    have hsh : new_row_values c sc (row :: rest) =
        (List.range c).map (fun col => row.getD (sc + col) 0)
          ++ new_row_values c sc rest := rfl
    have hlen1 : ((List.range c).map (fun col => row.getD (sc + col) 0)).length = c := by
      simp
    cases r with
    | zero =>
      rw [hsh, Nat.zero_mul, Nat.zero_add,
        List.getD_append _ _ _ _ (by omega), getD_map_range _ _ _ _ hc]
      rfl
    | succ r =>
      have harith : (r + 1) * c + ci = c + (r * c + ci) := by ring
      rw [hsh, harith, List.getD_append_right _ _ _ _ (by omega), hlen1,
        Nat.add_sub_cancel_left, ih r ci (by simpa using hr) hc]
      rfl

/-- Indexing the appended part of a block: after the copied
`num_rows * num_columns` cells, entry `r * c + ci` is new row `r`'s value
at logical column `start_col + ci`. -/
theorem group_block_getD_new (md : Metadata) (file : List ℚ) (rows : List (List ℚ))
    (gidx r ci : Nat) (hr : r < rows.length)
    (hc : ci < (md.groups.getD gidx default).num_columns) :
    (group_block md file rows gidx).getD
        (md.num_rows * (md.groups.getD gidx default).num_columns
          + (r * (md.groups.getD gidx default).num_columns + ci)) 0 =
      (rows.getD r []).getD (start_col md gidx + ci) 0 := by
  rw [group_block]
  have hlen1 : ((List.range
      (md.num_rows * (md.groups.getD gidx default).num_columns)).map
        (fun k => readFloatAt file ((md.groups.getD gidx default).offset + 4 * k))).length
      = md.num_rows * (md.groups.getD gidx default).num_columns := by
    simp
  rw [List.getD_append_right _ _ _ _ (by omega), hlen1, Nat.add_sub_cancel_left]
  exact new_row_values_getD _ _ rows r ci hr hc

/-- Rebuilding a list from indexed access. -/
theorem map_getD_range {α β : Type} (l : List α) (d : α) (f : α → β) :
    (List.range l.length).map (fun k => f (l.getD k d)) = l.map f := by
  induction l with
  | nil => rfl
  | cons a l ih =>
    rw [List.length_cons, List.range_succ_eq_map, List.map_cons, List.map_map,
      List.map_cons]
    congr 1

/-- The group scan only inspects the column lists. -/
theorem findGroupCol_congr (name : String) :
    ∀ gs1 gs2 : List Group, gs1.map Group.columns = gs2.map Group.columns →
      findGroupCol name gs1 = findGroupCol name gs2 := by
  intro gs1
  induction gs1 with
  | nil =>
    intro gs2 h
    cases gs2 with
    | nil => rfl
    | cons g2 t2 => simp at h
  | cons g1 t1 ih =>
    intro gs2 h
    cases gs2 with
    | nil => simp at h
    | cons g2 t2 =>
      simp only [List.map_cons, List.cons.injEq] at h
      obtain ⟨hc, ht⟩ := h
      rw [findGroupCol_cons, findGroupCol_cons, hc, ih t2 ht]

/-- Name resolution only depends on the scanned groups' column lists. -/
theorem gci_congr (md md' : Metadata) (name : String)
    (h : (md.groups.take md.num_groups).map Group.columns
        = (md'.groups.take md'.num_groups).map Group.columns) :
    get_column_info md name = get_column_info md' name := by
  unfold get_column_info
  by_cases hname : name = ""
  · rw [if_pos hname, if_pos hname]
  · rw [if_neg hname, if_neg hname, findGroupCol_congr name _ _ h]

/-- Unfolding equation of the `validate_rows` loop on a cons cell. -/
theorem validate_rows_go_cons (total base : Nat) (r : List ℚ) (rest : List (List ℚ)) :
    validate_rows_go total base (r :: rest) =
      if r.length ≠ total then some (RowsError.shapeMismatch base total r.length)
      else validate_rows_go total (base + 1) rest := rfl

/-- Validation accepts rows that all have the expected width. -/
theorem validate_rows_go_none (total : Nat) (rows : List (List ℚ)) :
    ∀ base, (∀ r ∈ rows, r.length = total) → validate_rows_go total base rows = none := by
  induction rows with
  | nil =>
    intro base h
    rfl
  | cons r rest ih =>
    intro base h
    rw [validate_rows_go_cons, if_neg (by simp [h r (List.mem_cons_self r rest)])]
    exact ih (base + 1) (fun r' hr' => h r' (List.mem_cons_of_mem _ hr'))

/-- `validate_rows` accepts a non-empty list of full-width rows. -/
theorem validate_rows_none (md : Metadata) (rows : List (List ℚ)) (hne : rows ≠ [])
    (hlen : ∀ r ∈ rows, r.length = total_columns md) :
    validate_rows md rows = none := by
  rw [validate_rows, if_neg hne]
  exact validate_rows_go_none _ rows 0 hlen

/-- The validation loop reports the first offending row with its index,
the expected width and the actual width. -/
theorem validate_rows_go_first (total : Nat) (rows : List (List ℚ)) :
    ∀ base i, i < rows.length → (rows.getD i []).length ≠ total →
      (∀ j < i, (rows.getD j []).length = total) →
      validate_rows_go total base rows =
        some (RowsError.shapeMismatch (base + i) total (rows.getD i []).length) := by
  induction rows with
  | nil =>
    intro base i hi hmis hfirst
    simp at hi
  | cons r rest ih =>
    intro base i hi hmis hfirst
    cases i with
    | zero =>
      rw [validate_rows_go_cons, if_pos (by simpa using hmis)]
      rfl
    | succ i =>
      have h0 : r.length = total := by simpa using hfirst 0 (Nat.succ_pos i)
      rw [validate_rows_go_cons, if_neg (by simp [h0])]
      have hrec := ih (base + 1) i (by simpa using hi) (by simpa using hmis)
        (fun j hj => by simpa using hfirst (j + 1) (by omega))
      rw [hrec]
      have harith : base + 1 + i = base + (i + 1) := by omega
      rw [harith]
      rfl

/-- C6: when some new row's length differs from the table's total logical
column count, validation fails naming the first offending row index, the
expected count and the actual count, and `add_row` produces no output at
all — validation precedes every output write. -/
theorem add_row_shape_mismatch (md : Metadata) (file : List ℚ) (rows : List (List ℚ))
    (i : Nat) (hi : i < rows.length)
    (hmis : (rows.getD i []).length ≠ total_columns md)
    (hfirst : ∀ j < i, (rows.getD j []).length = total_columns md) :
    validate_rows md rows =
      some (RowsError.shapeMismatch i (total_columns md) (rows.getD i []).length)
    ∧ add_row md file rows = none := by
  have hne : rows ≠ [] := by
    intro h
    rw [h] at hi
    simp at hi
  have hval : validate_rows md rows =
      some (RowsError.shapeMismatch i (total_columns md) (rows.getD i []).length) := by
    rw [validate_rows, if_neg hne]
    have := validate_rows_go_first (total_columns md) rows 0 i hi hmis hfirst
    simpa using this
  refine ⟨hval, ?_⟩
  unfold add_row
  rw [hval]

/-- Witness for `add_row_shape_mismatch`: appending `[[1,2,3],[4]]` to
`mdEx` (3 logical columns) reports row 1 with expected 3, got 1, and
produces nothing. -/
theorem add_row_shape_mismatch_witness :
    validate_rows mdEx [[1, 2, 3], [4]] = some (RowsError.shapeMismatch 1 3 1)
    ∧ add_row mdEx fileEx [[1, 2, 3], [4]] = none := by
  have h := add_row_shape_mismatch mdEx fileEx [[1, 2, 3], [4]] 1
    (by decide) (by decide) (by decide)
  exact h

/-- Strict bound for a row-major index. -/
theorem mul_index_lt (r R ci c : Nat) (hr : r < R) (hc : ci < c) :
    r * c + ci < R * c := by
  have h2 : r * c + c = (r + 1) * c := by ring
  have h3 : (r + 1) * c ≤ R * c := Nat.mul_le_mul_right c hr
  omega

/-- C1 (amended): for a well-formed table and a non-empty list of new
rows, each of full logical width, `add_row` produces a table whose
`num_rows` is the old count plus the row count, whose groups keep their
columns with offsets relocated to the running cumulative output position,
in which every pre-existing stored value is bit-identical at its
relocated group offset, and in which every new row's values are
retrievable via `project_single_column` at the appended row indices. -/
theorem add_row_append_spec (md : Metadata) (file : List ℚ) (rows : List (List ℚ))
    (newMd : Metadata) (newFile : List ℚ)
    (hwf : WellFormed md)
    (hne : rows ≠ [])
    (hlen : ∀ r ∈ rows, r.length = total_columns md)
    (hsome : add_row md file rows = some (newMd, newFile)) :
    newMd.num_rows = md.num_rows + rows.length
    ∧ newMd.num_groups = md.num_groups
    ∧ (∀ gi, gi < md.num_groups →
        (newMd.groups.getD gi default).offset = new_offset md rows.length gi
        ∧ (newMd.groups.getD gi default).num_columns
            = (md.groups.getD gi default).num_columns
        ∧ (newMd.groups.getD gi default).columns = (md.groups.getD gi default).columns)
    ∧ (∀ gi, gi < md.num_groups →
        ∀ k, k < md.num_rows * (md.groups.getD gi default).num_columns →
          readFloatAt newFile ((newMd.groups.getD gi default).offset + 4 * k)
            = readFloatAt file ((md.groups.getD gi default).offset + 4 * k))
    ∧ (∀ (name : String) (gi ci : Nat),
        get_column_info md name = ((gi : Int), (ci : Int)) →
        ∀ r, r < rows.length →
          (project_single_column newMd newFile name).getD (md.num_rows + r) 0
            = (rows.getD r []).getD (start_col md gi + ci) 0) := by
  have hval := validate_rows_none md rows hne hlen
  have hadd : add_row md file rows =
      some ({ md with
          num_rows := md.num_rows + rows.length,
          groups := (add_row_go md file rows md.num_groups 0 0).1 },
        (add_row_go md file rows md.num_groups 0 0).2) := by
    unfold add_row
    rw [hval]
  rw [hadd] at hsome
  have hpair := Option.some.inj hsome
  have hMd : ({ md with
      num_rows := md.num_rows + rows.length,
      groups := (add_row_go md file rows md.num_groups 0 0).1 } : Metadata) = newMd :=
    congrArg Prod.fst hpair
  have hFile : (add_row_go md file rows md.num_groups 0 0).2 = newFile :=
    congrArg Prod.snd hpair
  have hnr : newMd.num_rows = md.num_rows + rows.length := by
    rw [← hMd]
  have hng : newMd.num_groups = md.num_groups := by
    rw [← hMd]
  have hgroups : newMd.groups = (add_row_go md file rows md.num_groups 0 0).1 := by
    rw [← hMd]
  have hdesc : ∀ gi, gi < md.num_groups →
      (add_row_go md file rows md.num_groups 0 0).1.getD gi default =
        { md.groups.getD gi default with offset := new_offset md rows.length gi } := by
    intro gi hgi
    rw [add_row_go_fst_getD md file rows md.num_groups 0 0 gi hgi]
    simp only [Nat.zero_add]
    rw [new_offset]
  have hoff2 : ∀ gi, gi < md.num_groups →
      ((add_row_go md file rows md.num_groups 0 0).1.getD gi default).offset =
        new_offset md rows.length gi := by
    intro gi hgi
    rw [hdesc gi hgi]
  have hnc2 : ∀ gi, gi < md.num_groups →
      ((add_row_go md file rows md.num_groups 0 0).1.getD gi default).num_columns =
        (md.groups.getD gi default).num_columns := by
    intro gi hgi
    rw [hdesc gi hgi]
  have hcol2 : ∀ gi, gi < md.num_groups →
      ((add_row_go md file rows md.num_groups 0 0).1.getD gi default).columns =
        (md.groups.getD gi default).columns := by
    intro gi hgi
    rw [hdesc gi hgi]
  refine ⟨hnr, hng, ?_, ?_, ?_⟩
  · intro gi hgi
    rw [hgroups]
    exact ⟨hoff2 gi hgi, hnc2 gi hgi, hcol2 gi hgi⟩
  · intro gi hgi k hk
    rw [hgroups, ← hFile, hoff2 gi hgi]
    show (add_row_go md file rows md.num_groups 0 0).2.getD
        ((new_offset md rows.length gi + 4 * k) / 4) 0 =
      readFloatAt file ((md.groups.getD gi default).offset + 4 * k)
    have hidx : (new_offset md rows.length gi + 4 * k) / 4 =
        block_sum md rows.length gi + k := by
      rw [new_offset_eq]
      omega
    rw [hidx, ← block_length_sum md file rows gi]
    have hsnd := add_row_go_snd_getD md file rows md.num_groups 0 0 gi k hgi
      (by rw [Nat.zero_add, group_block_length]; omega)
    simp only [Nat.zero_add] at hsnd
    rw [hsnd]
    exact group_block_getD_old md file rows gi k hk
  · intro name gi ci h r hr
    have hfm := gci_some_first_match md name gi ci h
    obtain ⟨hg1, hc1, _, _, _⟩ := hfm
    have htake : md.groups.take md.num_groups = md.groups := by
      rw [hwf.1]
      exact List.take_length md.groups
    rw [htake] at hg1 hc1
    have hgi : gi < md.num_groups := by
      rw [hwf.1]
      exact hg1
    have hcols : (md.groups.getD gi default).columns.length =
        (md.groups.getD gi default).num_columns :=
      hwf.2 _ (getD_mem hg1)
    have hci : ci < (md.groups.getD gi default).num_columns := by
      rw [← hcols]
      exact hc1
    have hcongr : get_column_info newMd name = get_column_info md name := by
      apply gci_congr
      rw [hng, hgroups,
        List.take_of_length_le (le_of_eq (add_row_go_fst_length md file rows md.num_groups 0 0)),
        add_row_go_fst_columns]
      simp only [Nat.zero_add]
      rw [htake, hwf.1]
      exact map_getD_range md.groups default Group.columns
    have h' : get_column_info newMd name = ((gi : Int), (ci : Int)) := by
      rw [hcongr, h]
    rw [project_single_column_eq newMd newFile name gi ci h',
      getD_map_range _ _ _ _ (show md.num_rows + r < newMd.num_rows by rw [hnr]; omega),
      hgroups, ← hFile, hoff2 gi hgi, hnc2 gi hgi]
    show (add_row_go md file rows md.num_groups 0 0).2.getD
        ((new_offset md rows.length gi
          + ((md.num_rows + r) * (md.groups.getD gi default).num_columns + ci) * 4) / 4)
        0 = (rows.getD r []).getD (start_col md gi + ci) 0
    have hidx2 : (new_offset md rows.length gi
        + ((md.num_rows + r) * (md.groups.getD gi default).num_columns + ci) * 4) / 4
        = block_sum md rows.length gi
          + ((md.num_rows + r) * (md.groups.getD gi default).num_columns + ci) := by
      rw [new_offset_eq]
      generalize (md.num_rows + r) * (md.groups.getD gi default).num_columns + ci = E
      omega
    rw [hidx2]
    have hsplit : (md.num_rows + r) * (md.groups.getD gi default).num_columns + ci
        = md.num_rows * (md.groups.getD gi default).num_columns
          + (r * (md.groups.getD gi default).num_columns + ci) := by
      ring
    rw [hsplit, ← block_length_sum md file rows gi]
    have hbound := mul_index_lt r rows.length ci
      (md.groups.getD gi default).num_columns hr hci
    have hsnd := add_row_go_snd_getD md file rows md.num_groups 0 0 gi
      (md.num_rows * (md.groups.getD gi default).num_columns
        + (r * (md.groups.getD gi default).num_columns + ci)) hgi
      (by rw [Nat.zero_add, group_block_length]; omega)
    simp only [Nat.zero_add] at hsnd
    rw [hsnd]
    exact group_block_getD_new md file rows gi r ci hr hci

/-- Result metadata of appending `[[5, 6, 7]]` to the `mdEx` table. -/
def newMdEx : Metadata :=
  { num_rows := 3
    num_groups := 2
    groups :=
      [ { num_columns := 2, offset := 0,
          columns := [⟨"a", "float"⟩, ⟨"b", "float"⟩] },
        { num_columns := 1, offset := 24,
          columns := [⟨"c", "float"⟩] } ] }

/-- Result data region of appending `[[5, 6, 7]]` to the `mdEx` table. -/
def newFileEx : List ℚ := [1, 2, 3, 4, 5, 6, 10, 20, 7]

/-- Witness for `add_row_append_spec`: appending one full-width row to
`mdEx` yields 3 rows, preserves the first stored value of group 1 at its
relocated offset 24, and makes the new row's `c` value 7 retrievable at
row index 2. -/
theorem add_row_append_spec_witness :
    newMdEx.num_rows = 3
    ∧ readFloatAt newFileEx ((newMdEx.groups.getD 1 default).offset + 4 * 0)
        = readFloatAt fileEx ((mdEx.groups.getD 1 default).offset + 4 * 0)
    ∧ (project_single_column newMdEx newFileEx "c").getD 2 0
        = ([[5, 6, 7]].getD 0 []).getD (start_col mdEx 1 + 0) 0 := by
  have h := add_row_append_spec mdEx fileEx [[5, 6, 7]] newMdEx newFileEx
    (by decide) (by decide) (by decide) (by decide)
  exact ⟨h.1, h.2.2.2.1 1 (by decide) 0 (by decide),
    h.2.2.2.2 "c" 1 0 (by decide) 0 (by decide)⟩

/-- C5 (amended): `add_row` with an empty row list is rejected by
`validate_rows` ("No rows provided") and produces no output at all; it is
not accepted as a no-op copy. -/
theorem add_row_empty_rejected (md : Metadata) (file : List ℚ) :
    validate_rows md [] = some RowsError.noRows ∧ add_row md file [] = none := by
  constructor <;> rfl

/-- C5 (counterexample): on a concrete table, `add_row` with zero rows
fails instead of producing a copy of the source table. -/
theorem add_row_empty_cex :
    add_row mdEx2 fileEx2 [] = none
    ∧ validate_rows mdEx2 [] = some RowsError.noRows := by
  constructor <;> rfl

/-- C1 (counterexample): with zero new rows (`R = 0`), `add_row` on a
concrete well-formed table produces no table at all, so no table with
`num_rows = old + R` results. -/
theorem add_row_zero_rows_cex :
    (¬ ∃ p : Metadata × List ℚ, add_row mdEx fileEx [] = some p)
    ∧ WellFormed mdEx := by
  constructor
  · rintro ⟨p, hp⟩
    simp [add_row, validate_rows] at hp
  · decide

end Hty
